import Mathlib

/-!
Verification of the Vejdirektoratet winter-roads tile decoder and status logic.

The development shallowly embeds the Python sources:
  custom_components/vejdirektoratet_unofficial/mvt_decoder.py
  custom_components/vejdirektoratet_unofficial/api.py
  custom_components/vejdirektoratet_unofficial/const.py

Modelling conventions:
- A byte buffer is a `List Nat`; the mutable read cursor of the Python code is
  represented by the remaining suffix of the buffer, so `data[pos:]` becomes the
  list itself and `pos += k` becomes `List.drop k`.  Python slices
  `data[pos : pos + n]` become `List.take n` (both clamp at the end).
- Python exceptions become `Except DErr`; each raise site maps to one `DErr`
  constructor.  `DErr.fuelOut` is an artifact of the explicit loop fuel below and
  is unreachable for the fuel chosen by the wrappers (each loop iteration
  consumes at least one byte of the buffer).
- A Python `str` is represented by its UTF-8 byte list; `bytes.decode` becomes a
  validity check (`utf8Valid`) returning the same bytes.
- Python floats obtained from `struct.unpack` are represented by their raw
  little-endian payload bytes; no verified property depends on the numeric or
  textual value of a float.
- `gzip.decompress` and the pyproj projection are external collaborators of the
  core; they are passed as an explicit function parameter, respectively the
  function is taken to start from already-projected coordinates.
-/

/-- Error taxonomy: one constructor per distinct raise site reachable from the
decoder (`ValueError` for truncated varints and unknown wire types,
`UnicodeDecodeError`, `struct.error`, gzip errors), plus the fuel artifact. -/
inductive DErr
  | truncated
  | unknownWireType
  | invalidUtf8
  | structError
  | gzipError
  | fuelOut
deriving DecidableEq

/-- The dynamic Python value returned by `decode_value`:
`str | int | float | bool | None`.  Strings are UTF-8 byte lists, floats carry
their raw wire bytes (4 bytes for `<f`, 8 for `<d`). -/
inductive PyVal
  | str (bytes : List Nat)
  | float32 (bytes : List Nat)
  | float64 (bytes : List Nat)
  | int (i : Int)
  | bool (b : Bool)
  | none
deriving DecidableEq

/-- A Python dict in insertion order: the `properties` mapping of a feature. -/
abbrev Props := List (List Nat × PyVal)

deriving instance DecidableEq for Except

/-- Loop body of `decode_varint` (mvt_decoder.py lines 11-24).  Accumulates
`result |= (byte & 0x7F) << shift` and stops on a clear high bit; an empty
remainder is the `Unexpected end of data while reading varint` raise. -/
def decodeVarintGo (shift acc : Nat) : List Nat → Except DErr (Nat × List Nat)
  | [] => .error .truncated
  | byte :: rest =>
    let acc2 := acc ||| ((byte &&& 127) <<< shift)
    if byte &&& 128 == 0 then .ok (acc2, rest)
    else decodeVarintGo (shift + 7) acc2 rest

/-- Model of `decode_varint(data, pos)`: returns the decoded value and the remaining
suffix of the buffer (the new position). -/
def decode_varint (data : List Nat) : Except DErr (Nat × List Nat) :=
  decodeVarintGo 0 0 data

/-- Model of `decode_sint(value)`: zigzag decode `(value >> 1) ^ -(value & 1)` with
Python unbounded-integer semantics. -/
def decode_sint (value : Nat) : Int :=
  Int.xor ((value >>> 1 : Nat) : Int) (-((value &&& 1 : Nat) : Int))

/-- Model of `skip_field(data, pos, wire_type)` (mvt_decoder.py lines 32-45).  Note that
the fixed-width and length-delimited branches advance the cursor without any
bounds check, exactly as `pos += 8` etc. do in the source. -/
def skip_field (data : List Nat) (wire_type : Nat) : Except DErr (List Nat) :=
  if wire_type == 0 then
    match decode_varint data with
    | .error e => .error e
    | .ok (_, rest) => .ok rest
  else if wire_type == 1 then .ok (data.drop 8)
  else if wire_type == 2 then
    match decode_varint data with
    | .error e => .error e
    | .ok (length, rest) => .ok (rest.drop length)
  else if wire_type == 5 then .ok (data.drop 4)
  else .error .unknownWireType

/-- A UTF-8 continuation byte. -/
def utf8Cont (b : Nat) : Bool := 128 ≤ b && b ≤ 191

/-- Strict UTF-8 validity of a byte sequence, as checked by Python
`bytes.decode("utf-8")` (rejects overlong forms, surrogates and bytes above
0xF4). -/
def utf8Valid : List Nat → Bool
  | [] => true
  | b :: rest =>
    if b ≤ 127 then utf8Valid rest
    else if 194 ≤ b && b ≤ 223 then
      match rest with
      | c1 :: r => utf8Cont c1 && utf8Valid r
      | [] => false
    else if b == 224 then
      match rest with
      | c1 :: c2 :: r => (160 ≤ c1 && c1 ≤ 191) && utf8Cont c2 && utf8Valid r
      | _ => false
    else if 225 ≤ b && b ≤ 236 then
      match rest with
      | c1 :: c2 :: r => utf8Cont c1 && utf8Cont c2 && utf8Valid r
      | _ => false
    else if b == 237 then
      match rest with
      | c1 :: c2 :: r => (128 ≤ c1 && c1 ≤ 159) && utf8Cont c2 && utf8Valid r
      | _ => false
    else if 238 ≤ b && b ≤ 239 then
      match rest with
      | c1 :: c2 :: r => utf8Cont c1 && utf8Cont c2 && utf8Valid r
      | _ => false
    else if b == 240 then
      match rest with
      | c1 :: c2 :: c3 :: r =>
        (144 ≤ c1 && c1 ≤ 191) && utf8Cont c2 && utf8Cont c3 && utf8Valid r
      | _ => false
    else if 241 ≤ b && b ≤ 243 then
      match rest with
      | c1 :: c2 :: c3 :: r => utf8Cont c1 && utf8Cont c2 && utf8Cont c3 && utf8Valid r
      | _ => false
    else if b == 244 then
      match rest with
      | c1 :: c2 :: c3 :: r =>
        (128 ≤ c1 && c1 ≤ 143) && utf8Cont c2 && utf8Cont c3 && utf8Valid r
      | _ => false
    else false

/-- Loop of `decode_value` (mvt_decoder.py lines 48-78), one fuel unit per
iteration of `while pos < len(data)`. -/
def decodeValueLoop : Nat → List Nat → Except DErr PyVal
  | 0, _ => .error .fuelOut
  | fuel + 1, data =>
    if data.isEmpty then .ok .none
    else
      match decode_varint data with
      | .error e => .error e
      | .ok (tag, rest) =>
        let field_num := tag >>> 3
        let wire_type := tag &&& 7
        if field_num == 1 && wire_type == 2 then
          match decode_varint rest with
          | .error e => .error e
          | .ok (length, rest2) =>
            let s := rest2.take length
            if utf8Valid s then .ok (.str s) else .error .invalidUtf8
        else if field_num == 2 && wire_type == 5 then
          let s := rest.take 4
          if s.length == 4 then .ok (.float32 s) else .error .structError
        else if field_num == 3 && wire_type == 1 then
          let s := rest.take 8
          if s.length == 8 then .ok (.float64 s) else .error .structError
        else if field_num == 4 && wire_type == 0 then
          match decode_varint rest with
          | .error e => .error e
          | .ok (val, _) => .ok (.int (val : Int))
        else if field_num == 5 && wire_type == 0 then
          match decode_varint rest with
          | .error e => .error e
          | .ok (val, _) => .ok (.int (val : Int))
        else if field_num == 6 && wire_type == 0 then
          match decode_varint rest with
          | .error e => .error e
          | .ok (val, _) => .ok (.int (decode_sint val))
        else if field_num == 7 && wire_type == 0 then
          match decode_varint rest with
          | .error e => .error e
          | .ok (val, _) => .ok (.bool (val != 0))
        else
          match skip_field rest wire_type with
          | .error e => .error e
          | .ok rest2 => decodeValueLoop fuel rest2

/-- Model of `decode_value(data)`: the loop runs at most `len(data)` times (each
iteration consumes at least the tag byte), so `length + 1` fuel is exact. -/
def decode_value (data : List Nat) : Except DErr PyVal :=
  decodeValueLoop (data.length + 1) data

/-- Inner packed-tags loop of `decode_feature` (`while pos < end`).  `budget`
is `end - pos`; as in the source, a varint may run past `end`, in which case
the loop simply exits with the cursor past `end`. -/
def packedVarints : Nat → List Nat → Nat → List Nat → Except DErr (List Nat × List Nat)
  | 0, _, _, _ => .error .fuelOut
  | fuel + 1, remaining, budget, tags =>
    if budget == 0 then .ok (tags, remaining)
    else
      match decode_varint remaining with
      | .error e => .error e
      | .ok (val, rest) =>
        packedVarints fuel rest (budget - (remaining.length - rest.length)) (tags ++ [val])

/-- Outer loop of `decode_feature` (mvt_decoder.py lines 87-99), collecting the
packed `tags` array of field 2 and skipping everything else. -/
def decodeFeatureLoop : Nat → List Nat → List Nat → Except DErr (List Nat)
  | 0, _, _ => .error .fuelOut
  | fuel + 1, data, tags =>
    if data.isEmpty then .ok tags
    else
      match decode_varint data with
      | .error e => .error e
      | .ok (tag, rest) =>
        let field_num := tag >>> 3
        let wire_type := tag &&& 7
        if field_num == 2 && wire_type == 2 then
          match decode_varint rest with
          | .error e => .error e
          | .ok (length, rest2) =>
            match packedVarints (rest2.length + 1) rest2 length tags with
            | .error e => .error e
            | .ok (tags2, rest3) => decodeFeatureLoop fuel rest3 tags2
        else
          match skip_field rest wire_type with
          | .error e => .error e
          | .ok rest2 => decodeFeatureLoop fuel rest2 tags

/-- Assignment `properties[key] = value` on a Python dict: update in place if the key is
present, append otherwise. -/
def insertProp (props : Props) (k : List Nat) (v : PyVal) : Props :=
  if props.any (fun p => p.1 == k) then
    props.map (fun p => if p.1 == k then (k, v) else p)
  else props ++ [(k, v)]

/-- Lookup `properties.get(key)`. -/
def getProp (props : Props) (k : List Nat) : Option PyVal :=
  (props.find? (fun p => p.1 == k)).map (fun p => p.2)

/-- The tags-to-properties conversion of `decode_feature` (mvt_decoder.py lines
101-107): walk the tags two at a time, discard a trailing unpaired element,
drop out-of-range pairs, insert in order. -/
def tags_to_properties (keys : List (List Nat)) (values : List PyVal) :
    List Nat → Props → Props
  | [], props => props
  | [_], props => props
  | key_idx :: val_idx :: rest, props =>
    if h : key_idx < keys.length ∧ val_idx < values.length then
      tags_to_properties keys values rest
        (insertProp props (keys.get ⟨key_idx, h.1⟩) (values.get ⟨val_idx, h.2⟩))
    else tags_to_properties keys values rest props

/-- Model of `decode_feature(data, keys, values)`. -/
def decode_feature (data : List Nat) (keys : List (List Nat)) (values : List PyVal) :
    Except DErr Props :=
  match decodeFeatureLoop (data.length + 1) data [] with
  | .error e => .error e
  | .ok tags => .ok (tags_to_properties keys values tags [])

/-- Collection pass of `decode_layer` (mvt_decoder.py lines 119-138): keys
(field 3), values (field 4) and raw feature slices (field 2), in wire order. -/
def decodeLayerLoop : Nat → List Nat → List (List Nat) → List PyVal → List (List Nat) →
    Except DErr (List (List Nat) × List PyVal × List (List Nat))
  | 0, _, _, _, _ => .error .fuelOut
  | fuel + 1, data, keys, values, features_data =>
    if data.isEmpty then .ok (keys, values, features_data)
    else
      match decode_varint data with
      | .error e => .error e
      | .ok (tag, rest) =>
        let field_num := tag >>> 3
        let wire_type := tag &&& 7
        if field_num == 3 && wire_type == 2 then
          match decode_varint rest with
          | .error e => .error e
          | .ok (length, rest2) =>
            let s := rest2.take length
            if utf8Valid s then
              decodeLayerLoop fuel (rest2.drop length) (keys ++ [s]) values features_data
            else .error .invalidUtf8
        else if field_num == 4 && wire_type == 2 then
          match decode_varint rest with
          | .error e => .error e
          | .ok (length, rest2) =>
            match decode_value (rest2.take length) with
            | .error e => .error e
            | .ok v =>
              decodeLayerLoop fuel (rest2.drop length) keys (values ++ [v]) features_data
        else if field_num == 2 && wire_type == 2 then
          match decode_varint rest with
          | .error e => .error e
          | .ok (length, rest2) =>
            decodeLayerLoop fuel (rest2.drop length) keys values
              (features_data ++ [rest2.take length])
        else
          match skip_field rest wire_type with
          | .error e => .error e
          | .ok rest2 => decodeLayerLoop fuel rest2 keys values features_data

/-- The resolve pass of `decode_layer` (mvt_decoder.py lines 141-144): the
`for feature_data in features_data` loop, each iteration decoding one stored
feature slice against the collected keys and values. -/
def decodeFeatures (keys : List (List Nat)) (values : List PyVal) :
    List (List Nat) → Except DErr (List Props)
  | [] => .ok []
  | fd :: rest =>
    match decode_feature fd keys values with
    | .error e => .error e
    | .ok props =>
      match decodeFeatures keys values rest with
      | .error e => .error e
      | .ok more => .ok (props :: more)

/-- Model of `decode_layer(data)`: collect keys, values and feature slices over the whole
buffer, then resolve every feature against the completed arrays. -/
def decode_layer (data : List Nat) : Except DErr (List Props) :=
  match decodeLayerLoop (data.length + 1) data [] [] [] with
  | .error e => .error e
  | .ok (keys, values, features_data) => decodeFeatures keys values features_data

/-- The UTF-8 bytes of the string literal featureId. -/
def featureIdBytes : List Nat := [102, 101, 97, 116, 117, 114, 101, 73, 100]

/-- The UTF-8 bytes Python prints for the boolean True. -/
def trueBytes : List Nat := [84, 114, 117, 101]

/-- The UTF-8 bytes Python prints for the boolean False. -/
def falseBytes : List Nat := [70, 97, 108, 115, 101]

/-- The UTF-8 bytes Python prints for None. -/
def noneBytes : List Nat := [78, 111, 110, 101]

/-- Decimal rendering of a Python integer, as bytes. -/
def intBytes (i : Int) : List Nat := (toString i).toList.map Char.toNat

/-- Python `str(value)`.  For floats the placeholder is the raw payload bytes;
no verified property depends on the textual rendering of a float. -/
def pyStr : PyVal → List Nat
  | .str s => s
  | .int i => intBytes i
  | .bool true => trueBytes
  | .bool false => falseBytes
  | .float32 bs => bs
  | .float64 bs => bs
  | .none => noneBytes

/-- Per-layer harvesting in `extract_feature_ids` (mvt_decoder.py lines
176-179): `props.get("featureId")`, skip `None`, stringify and append. -/
def collectIds (features : List Props) : List (List Nat) :=
  features.filterMap (fun props =>
    match getProp props featureIdBytes with
    | Option.none => Option.none
    | Option.some PyVal.none => Option.none
    | Option.some v => Option.some (pyStr v))

/-- Top-level tile loop of `extract_feature_ids` (mvt_decoder.py lines
165-181): decode each field-3 layer, skip everything else. -/
def extractLoop : Nat → List Nat → List (List Nat) → Except DErr (List (List Nat))
  | 0, _, _ => .error .fuelOut
  | fuel + 1, data, acc =>
    if data.isEmpty then .ok acc
    else
      match decode_varint data with
      | .error e => .error e
      | .ok (tag, rest) =>
        let field_num := tag >>> 3
        let wire_type := tag &&& 7
        if field_num == 3 && wire_type == 2 then
          match decode_varint rest with
          | .error e => .error e
          | .ok (length, rest2) =>
            match decode_layer (rest2.take length) with
            | .error e => .error e
            | .ok features => extractLoop fuel (rest2.drop length) (acc ++ collectIds features)
        else
          match skip_field rest wire_type with
          | .error e => .error e
          | .ok rest2 => extractLoop fuel rest2 acc

/-- The two gzip magic bytes 1F 8B. -/
def gzipMagic : List Nat := [31, 139]

/-- Model of `extract_feature_ids(tile_data)` (mvt_decoder.py lines 149-183).
`gzip.decompress` is an external library collaborator and is taken as the
`decompress` parameter (returning `.error .gzipError` on a malformed stream). -/
def extract_feature_ids (decompress : List Nat → Except DErr (List Nat))
    (tile_data : List Nat) : Except DErr (List (List Nat)) :=
  if tile_data.take 2 == gzipMagic then
    match decompress tile_data with
    | .error e => .error e
    | .ok d => extractLoop (d.length + 1) d []
  else extractLoop (tile_data.length + 1) tile_data []

/-- Model of `VejdirektoratetAPI.fetch_tile_features` (api.py lines 136-156), after the
tile version is known: the whole body - remote fetch plus extraction - sits in
one `try` whose `except Exception` returns `[]`.  The network fetch is an
external collaborator and is taken as its result (`.error` when the request
raised). -/
def fetch_tile_features (decompress : List Nat → Except DErr (List Nat))
    (fetch_result : Except Unit (List Nat)) : List (List Nat) :=
  match fetch_result with
  | .error _ => []
  | .ok content =>
    match extract_feature_ids decompress content with
    | .error _ => []
    | .ok ids => ids

/-- The `SaltingStatus` enum of api.py. -/
inductive SaltingStatus
  | salting_now
  | less_than_12h
  | between_12h_48h
  | more_than_48h
  | unknown
deriving DecidableEq

/-- Model of `get_salting_status(salting_time_epoch, salting_now)` (api.py lines 73-93).
The `datetime.now()` read inside the function is an external input and is
passed as `now` (epoch seconds); `hours_ago` is the exact rational
`(now - epoch) / 3600`, mirroring `total_seconds() / 3600`. -/
def get_salting_status (salting_time_epoch : Int) (salting_now : Bool) (now : Int) :
    SaltingStatus :=
  if salting_now then .salting_now
  else if salting_time_epoch ≤ 0 then .unknown
  else
    let hours_ago : ℚ := ((now : ℚ) - (salting_time_epoch : ℚ)) / 3600
    if hours_ago < 0 then .more_than_48h
    else if hours_ago < 12 then .less_than_12h
    else if hours_ago < 48 then .between_12h_48h
    else .more_than_48h

/-- const.py: TILE_GRID_ORIGIN_X. -/
def TILE_GRID_ORIGIN_X : ℚ := 120000

/-- const.py: TILE_GRID_ORIGIN_Y. -/
def TILE_GRID_ORIGIN_Y : ℚ := 6500000

/-- const.py: TILE_GRID_EXTENT_WIDTH, the decimal literal 1258291.2 modelled as
an exact rational. -/
def TILE_GRID_EXTENT_WIDTH : ℚ := 1258291.2

/-- Model of `lat_lon_to_tile` (api.py lines 47-58) after the external pyproj transform:
the function of the projected coordinates, over exact rationals. -/
def lat_lon_to_tile (utm_x utm_y : ℚ) (zoom : Nat) : Int × Int :=
  let tile_size := TILE_GRID_EXTENT_WIDTH / 2 ^ zoom
  (⌊(utm_x - TILE_GRID_ORIGIN_X) / tile_size⌋, ⌊(TILE_GRID_ORIGIN_Y - utm_y) / tile_size⌋)

/-! ### Wire-format encoders

The spec quantifies over valid encodings; the decoder theorems therefore need
the standard encoder for varints and tagged fields.  These definitions follow
the wire format of the spec, not the (decoder-only) source. -/

/-- Little-endian base-128 chunks of `n`, fuel-driven (`n + 1` is always
enough fuel since the argument at least halves each step). -/
def encVarintGo : Nat → Nat → List Nat
  | 0, _ => []
  | fuel + 1, n => if n < 128 then [n] else (n % 128 + 128) :: encVarintGo fuel (n / 128)

/-- The varint encoding of `n`. -/
def encVarint (n : Nat) : List Nat := encVarintGo (n + 1) n

/-- A wire payload of one of the four recognized wire types. -/
inductive WirePayload
  | varintP (v : Nat)
  | fixed64P (bytes : List Nat)
  | lenDelimP (bytes : List Nat)
  | fixed32P (bytes : List Nat)

/-- The wire-type number of a payload. -/
def wireTypeOf : WirePayload → Nat
  | .varintP _ => 0
  | .fixed64P _ => 1
  | .lenDelimP _ => 2
  | .fixed32P _ => 5

/-- Payload encoding per wire type. -/
def encPayload : WirePayload → List Nat
  | .varintP v => encVarint v
  | .fixed64P b => b
  | .lenDelimP b => encVarint b.length ++ b
  | .fixed32P b => b

/-- Well-formedness of a payload: fixed-width payloads have their exact width. -/
def goodPayload : WirePayload → Prop
  | .fixed64P b => b.length = 8
  | .fixed32P b => b.length = 4
  | _ => True

/-- One tagged field on the wire. -/
structure WField where
  num : Nat
  payload : WirePayload

/-- Encoding of a tagged field: tag varint `(num << 3) | wire_type`, then the
payload. -/
def encWField (f : WField) : List Nat :=
  encVarint (8 * f.num + wireTypeOf f.payload) ++ encPayload f.payload

/-- Concatenation of encoded fields. -/
def encWFields (fs : List WField) : List Nat := (fs.map encWField).flatten

/-- The field-number/wire-type pairings recognized by `decode_value`. -/
def recognizedValuePair (fn wt : Nat) : Prop :=
  (fn = 1 ∧ wt = 2) ∨ (fn = 2 ∧ wt = 5) ∨ (fn = 3 ∧ wt = 1) ∨
    (fn = 4 ∧ wt = 0) ∨ (fn = 5 ∧ wt = 0) ∨ (fn = 6 ∧ wt = 0) ∨ (fn = 7 ∧ wt = 0)

instance (fn wt : Nat) : Decidable (recognizedValuePair fn wt) := by
  unfold recognizedValuePair; infer_instance

/-- A layer field of one of the three kinds interpreted by `decode_layer`. -/
inductive LayerField
  | keyF (bytes : List Nat)
  | valF (bytes : List Nat)
  | featF (bytes : List Nat)

/-- Encoding of a layer field: keys are field 3, values field 4, features
field 2, all length-delimited. -/
def encLayerField : LayerField → List Nat
  | .keyF b => encVarint 26 ++ encVarint b.length ++ b
  | .valF b => encVarint 34 ++ encVarint b.length ++ b
  | .featF b => encVarint 18 ++ encVarint b.length ++ b

/-- Concatenation of encoded layer fields. -/
def encLayerFields (fs : List LayerField) : List Nat := (fs.map encLayerField).flatten

/-- The key byte-slices of a layer field list, in order. -/
def layerKeys (fs : List LayerField) : List (List Nat) :=
  fs.filterMap (fun f => match f with | .keyF b => Option.some b | _ => Option.none)

/-- The raw value byte-slices of a layer field list, in order. -/
def layerValSlices (fs : List LayerField) : List (List Nat) :=
  fs.filterMap (fun f => match f with | .valF b => Option.some b | _ => Option.none)

/-- The raw feature byte-slices of a layer field list, in order. -/
def layerFeatSlices (fs : List LayerField) : List (List Nat) :=
  fs.filterMap (fun f => match f with | .featF b => Option.some b | _ => Option.none)

/-- A value message with exactly one recognized field set. -/
inductive ValSpec
  | strV (b : List Nat)
  | f32V (b : List Nat)
  | f64V (b : List Nat)
  | intV (n : Nat)
  | uintV (n : Nat)
  | sintV (n : Nat)
  | boolV (n : Nat)

/-- Encoding of the single recognized field of a value message
(tags 1/LD, 2/F32, 3/F64, 4/5/6/7 Varint). -/
def encValSpec : ValSpec → List Nat
  | .strV b => encVarint 10 ++ encVarint b.length ++ b
  | .f32V b => encVarint 21 ++ b
  | .f64V b => encVarint 25 ++ b
  | .intV n => encVarint 32 ++ encVarint n
  | .uintV n => encVarint 40 ++ encVarint n
  | .sintV n => encVarint 48 ++ encVarint n
  | .boolV n => encVarint 56 ++ encVarint n

/-- Well-formedness of a value field (valid UTF-8 for strings, exact widths for
floats). -/
def valSpecGood : ValSpec → Prop
  | .strV b => utf8Valid b = true
  | .f32V b => b.length = 4
  | .f64V b => b.length = 8
  | _ => True

/-- The `PyVal` that `decode_value` produces for each recognized field. -/
def valOf : ValSpec → PyVal
  | .strV b => .str b
  | .f32V b => .float32 b
  | .f64V b => .float64 b
  | .intV n => .int (n : Int)
  | .uintV n => .int (n : Int)
  | .sintV n => .int (decode_sint n)
  | .boolV n => .bool (n != 0)

example : decode_varint [0x96, 0x01] = .ok (150, []) := by decide
example : decode_value [0x0A, 0x05, 0x61, 0x62] = .ok (.str [0x61, 0x62]) := by decide
example : skip_field [] 1 = .ok [] := by decide

/-! ### Arithmetic and varint lemmas -/

theorem and127_of_lt : ∀ b < 128, b &&& 127 = b := by decide

theorem and128_of_lt : ∀ b < 128, b &&& 128 = 0 := by decide

theorem and127_hi : ∀ b < 128, (b + 128) &&& 127 = b := by decide

theorem and128_hi : ∀ b < 128, (b + 128) &&& 128 = 128 := by decide

theorem lor_shift_eq_add {acc x s : Nat} (h : acc < 2 ^ s) :
    acc ||| (x <<< s) = acc + x * 2 ^ s := by
  rw [Nat.shiftLeft_eq, Nat.lor_comm, show x * 2 ^ s = 2 ^ s * x from Nat.mul_comm ..,
    ← Nat.mul_add_lt_is_or h x]
  omega

theorem decodeVarintGo_enc :
    ∀ fuel n, n < fuel → ∀ shift acc rest, acc < 2 ^ shift →
      decodeVarintGo shift acc (encVarintGo fuel n ++ rest) =
        .ok (acc + n * 2 ^ shift, rest) := by
  intro fuel
  induction fuel with
  | zero => intro n hn; exact absurd hn (Nat.not_lt_zero n)
  | succ fuel ih =>
    intro n hn shift acc rest hacc
    by_cases h128 : n < 128
    · simp only [encVarintGo, if_pos h128, List.cons_append, List.nil_append]
      simp only [decodeVarintGo, and127_of_lt n h128, and128_of_lt n h128,
        lor_shift_eq_add hacc]
      simp
    · simp only [encVarintGo, if_neg h128, List.cons_append]
      have hb : n % 128 < 128 := Nat.mod_lt _ (by norm_num)
      have hacc2 : acc + n % 128 * 2 ^ shift < 2 ^ (shift + 7) := by
        calc acc + n % 128 * 2 ^ shift
            < 2 ^ shift + n % 128 * 2 ^ shift := Nat.add_lt_add_right hacc _
          _ ≤ 2 ^ shift + 127 * 2 ^ shift := by
              have : n % 128 ≤ 127 := by omega
              exact Nat.add_le_add_left (Nat.mul_le_mul_right _ this) _
          _ = 2 ^ (shift + 7) := by rw [Nat.pow_add]; ring
      simp only [decodeVarintGo, and127_hi _ hb, and128_hi _ hb, lor_shift_eq_add hacc]
      have h2 : ((128 == 0) : Bool) = false := by decide
      rw [h2]
      simp only [Bool.false_eq_true, if_false]
      have h3 : n / 128 < fuel := by omega
      have ih2 := ih (n / 128) h3 (shift + 7) (acc + n % 128 * 2 ^ shift) rest hacc2
      rw [ih2]
      have hdm : 128 * (n / 128) + n % 128 = n := Nat.div_add_mod n 128
      have hp : (2 : Nat) ^ (shift + 7) = 2 ^ shift * 128 := by norm_num [Nat.pow_add]
      rw [hp]
      congr 2
      conv_rhs => rw [← hdm]
      ring

theorem decode_varint_enc (n : Nat) (rest : List Nat) :
    decode_varint (encVarint n ++ rest) = .ok (n, rest) := by
  have h := decodeVarintGo_enc (n + 1) n (Nat.lt_succ_self n) 0 0 rest (by norm_num)
  simpa [decode_varint, encVarint] using h

theorem encVarint_ne_nil (n : Nat) : encVarint n ≠ [] := by
  unfold encVarint encVarintGo
  by_cases h : n < 128 <;> simp [h]

theorem decodeVarintGo_all_cont :
    ∀ data, (∀ b ∈ data, b &&& 128 ≠ 0) → ∀ shift acc,
      decodeVarintGo shift acc data = .error .truncated := by
  intro data
  induction data with
  | nil => intro _ shift acc; rfl
  | cons byte rest ih =>
    intro h shift acc
    have hbyte : byte &&& 128 ≠ 0 := h byte (List.mem_cons_self ..)
    simp only [decodeVarintGo]
    rw [if_neg (by simpa using hbyte)]
    exact ih (fun b hb => h b (List.mem_cons_of_mem _ hb)) _ _

/-! ### Tag and field-step lemmas -/

theorem tag_field_num {f w : Nat} (h : w < 8) : (8 * f + w) >>> 3 = f := by
  rw [Nat.shiftRight_eq_div_pow]
  omega

theorem tag_wire_type {f w : Nat} (h : w < 8) : (8 * f + w) &&& 7 = w := by
  have h7 : (7 : Nat) = 2 ^ 3 - 1 := by norm_num
  rw [h7, Nat.and_pow_two_sub_one_eq_mod]
  omega

theorem isEmpty_enc_append (t : Nat) (x : List Nat) :
    (encVarint t ++ x).isEmpty = false := by
  rw [List.isEmpty_eq_false]
  intro h
  exact encVarint_ne_nil t (List.append_eq_nil.mp h).1

theorem decodeValueLoop_valSpec (s : ValSpec) (hs : valSpecGood s) (fuel : Nat)
    (rest : List Nat) :
    decodeValueLoop (fuel + 1) (encValSpec s ++ rest) = .ok (valOf s) := by
  cases s with
  | strV b =>
    simp only [valSpecGood] at hs
    simp [encValSpec, List.append_assoc, decodeValueLoop, isEmpty_enc_append,
      decode_varint_enc, List.take_left, hs, valOf,
      show (10 : Nat) &&& 7 = 2 from by decide]
  | f32V b =>
    simp only [valSpecGood] at hs
    simp [encValSpec, decodeValueLoop, isEmpty_enc_append, decode_varint_enc,
      List.take_left' hs, hs, valOf, show (21 : Nat) &&& 7 = 5 from by decide]
  | f64V b =>
    simp only [valSpecGood] at hs
    simp [encValSpec, decodeValueLoop, isEmpty_enc_append, decode_varint_enc,
      List.take_left' hs, hs, valOf, show (25 : Nat) &&& 7 = 1 from by decide]
  | intV n =>
    simp [encValSpec, List.append_assoc, decodeValueLoop, isEmpty_enc_append,
      decode_varint_enc, valOf, show (32 : Nat) &&& 7 = 0 from by decide]
  | uintV n =>
    simp [encValSpec, List.append_assoc, decodeValueLoop, isEmpty_enc_append,
      decode_varint_enc, valOf, show (40 : Nat) &&& 7 = 0 from by decide]
  | sintV n =>
    simp [encValSpec, List.append_assoc, decodeValueLoop, isEmpty_enc_append,
      decode_varint_enc, valOf, show (48 : Nat) &&& 7 = 0 from by decide]
  | boolV n =>
    simp [encValSpec, List.append_assoc, decodeValueLoop, isEmpty_enc_append,
      decode_varint_enc, valOf, show (56 : Nat) &&& 7 = 0 from by decide]

theorem decode_value_valSpec (s : ValSpec) (hs : valSpecGood s) (rest : List Nat) :
    decode_value (encValSpec s ++ rest) = .ok (valOf s) :=
  decodeValueLoop_valSpec s hs _ rest

theorem tagfn0 (num : Nat) : (8 * num) >>> 3 = num := by
  have h := tag_field_num (f := num) (w := 0) (by norm_num)
  simpa using h

theorem tagwt0 (num : Nat) : (8 * num) &&& 7 = 0 := by
  have h := tag_wire_type (f := num) (w := 0) (by norm_num)
  simpa using h

theorem tagfn1 (num : Nat) : (8 * num + 1) >>> 3 = num := tag_field_num (by norm_num)

theorem tagwt1 (num : Nat) : (8 * num + 1) &&& 7 = 1 := tag_wire_type (by norm_num)

theorem tagfn2 (num : Nat) : (8 * num + 2) >>> 3 = num := tag_field_num (by norm_num)

theorem tagwt2 (num : Nat) : (8 * num + 2) &&& 7 = 2 := tag_wire_type (by norm_num)

theorem tagfn5 (num : Nat) : (8 * num + 5) >>> 3 = num := tag_field_num (by norm_num)

theorem tagwt5 (num : Nat) : (8 * num + 5) &&& 7 = 5 := tag_wire_type (by norm_num)

theorem decodeValueLoop_skip (num : Nat) (p : WirePayload) (hgood : goodPayload p)
    (hnrec : ¬ recognizedValuePair num (wireTypeOf p))
    (fuel : Nat) (rest : List Nat) :
    decodeValueLoop (fuel + 1) (encWField ⟨num, p⟩ ++ rest) = decodeValueLoop fuel rest := by
  cases p with
  | varintP v =>
    have h4 : num ≠ 4 := fun h => hnrec (by simp [recognizedValuePair, wireTypeOf, h])
    have h5 : num ≠ 5 := fun h => hnrec (by simp [recognizedValuePair, wireTypeOf, h])
    have h6 : num ≠ 6 := fun h => hnrec (by simp [recognizedValuePair, wireTypeOf, h])
    have h7 : num ≠ 7 := fun h => hnrec (by simp [recognizedValuePair, wireTypeOf, h])
    simp [encWField, wireTypeOf, encPayload, List.append_assoc, decodeValueLoop,
      isEmpty_enc_append, decode_varint_enc, tagfn0, tagwt0, h4, h5, h6, h7, skip_field]
  | fixed64P b =>
    simp only [goodPayload] at hgood
    have h3 : num ≠ 3 := fun h => hnrec (by simp [recognizedValuePair, wireTypeOf, h])
    simp [encWField, wireTypeOf, encPayload, List.append_assoc, decodeValueLoop,
      isEmpty_enc_append, decode_varint_enc, tagfn1, tagwt1, h3, skip_field,
      List.drop_left' hgood]
  | lenDelimP b =>
    have h1 : num ≠ 1 := fun h => hnrec (by simp [recognizedValuePair, wireTypeOf, h])
    simp [encWField, wireTypeOf, encPayload, List.append_assoc, decodeValueLoop,
      isEmpty_enc_append, decode_varint_enc, tagfn2, tagwt2, h1, skip_field,
      List.drop_left]
  | fixed32P b =>
    simp only [goodPayload] at hgood
    have h2 : num ≠ 2 := fun h => hnrec (by simp [recognizedValuePair, wireTypeOf, h])
    simp [encWField, wireTypeOf, encPayload, List.append_assoc, decodeValueLoop,
      isEmpty_enc_append, decode_varint_enc, tagfn5, tagwt5, h2, skip_field,
      List.drop_left' hgood]

theorem encWFields_cons (f : WField) (fs : List WField) :
    encWFields (f :: fs) = encWField f ++ encWFields fs := by
  simp [encWFields]

theorem one_le_length_encWField (f : WField) : 1 ≤ (encWField f).length := by
  obtain ⟨n, p⟩ := f
  have h := encVarint_ne_nil (8 * n + wireTypeOf p)
  have h2 : 0 < (encVarint (8 * n + wireTypeOf p)).length := List.length_pos.mpr h
  simp only [encWField, List.length_append]
  omega

theorem length_encWFields_ge : ∀ pre : List WField, pre.length ≤ (encWFields pre).length := by
  intro pre
  induction pre with
  | nil => simp [encWFields]
  | cons f fs ih =>
    rw [encWFields_cons]
    have := one_le_length_encWField f
    simp only [List.length_cons, List.length_append]
    omega

theorem decodeValueLoop_skipAll :
    ∀ pre : List WField,
      (∀ f ∈ pre, goodPayload f.payload ∧ ¬ recognizedValuePair f.num (wireTypeOf f.payload)) →
      ∀ fuel tail,
        decodeValueLoop (fuel + pre.length) (encWFields pre ++ tail) = decodeValueLoop fuel tail := by
  intro pre
  induction pre with
  | nil => intro _ fuel tail; simp [encWFields]
  | cons f fs ih =>
    intro h fuel tail
    obtain ⟨n0, p0⟩ := f
    have hf := h ⟨n0, p0⟩ (List.mem_cons_self ..)
    rw [encWFields_cons, List.append_assoc]
    have hlen : fuel + (⟨n0, p0⟩ :: fs : List WField).length = (fuel + fs.length) + 1 := by
      simp [List.length_cons]
      omega
    rw [hlen, decodeValueLoop_skip n0 p0 hf.1 hf.2 (fuel + fs.length) (encWFields fs ++ tail)]
    exact ih (fun g hg => h g (List.mem_cons_of_mem _ hg)) fuel tail

theorem decodeValueLoop_nil (fuel : Nat) : decodeValueLoop (fuel + 1) [] = .ok .none := by
  simp [decodeValueLoop]

/-! ### Claim C1 -/

/-- Claim C1 counterexample: the buffer `[10, 5, 97, 98]` is the valid complete
encoding `[10, 5, 97, 98, 99, 100, 101]` (a string value message) truncated at a
byte boundary, yet `decode_value` succeeds with the silently truncated string
`"ab"` instead of failing with a truncation error; moreover `skip_field` on an
empty buffer with wire type Fixed64 succeeds although 8 payload bytes are
missing, leaving the cursor past the buffer end.  This refutes the claim that
every decode operation fails with TruncatedData on truncated input. -/
theorem claim_C1_counterexample :
    decode_value [10, 5, 97, 98, 99, 100, 101] = .ok (.str [97, 98, 99, 100, 101]) ∧
    decode_value [10, 5, 97, 98] = .ok (.str [97, 98]) ∧
    skip_field [] 1 = .ok [] :=
  ⟨by decide, by decide, by decide⟩

/-- Claim C1 (amended): truncation is reliably detected only inside varints:
if the buffer ends before a varint terminator byte (high bit clear), the varint
read fails with TruncatedData.  The fixed-width and length-delimited skip paths
and the value/string slicing paths do not bounds-check. -/
theorem claim_C1_varint_truncation_detected (data : List Nat)
    (h : ∀ b ∈ data, b &&& 128 ≠ 0) :
    decode_varint data = .error .truncated :=
  decodeVarintGo_all_cont data h 0 0

/-- Witness for the amended C1 theorem at the concrete truncated varint
`[255, 255]`. -/
theorem claim_C1_varint_truncation_detected_witness :
    decode_varint [255, 255] = .error .truncated :=
  claim_C1_varint_truncation_detected [255, 255] (by decide)

/-! ### Claim C4 -/

/-- Claim C4 counterexample: the value message whose field 4 (Varint) payload is
the ten-byte varint encoding of the signed 64-bit integer -1 decodes to the raw
unsigned value 2^64 - 1, not to -1: the decoder performs no signed 64-bit
reinterpretation. -/
theorem claim_C4_counterexample :
    decode_value [32, 255, 255, 255, 255, 255, 255, 255, 255, 255, 1] =
      .ok (.int 18446744073709551615) ∧ (18446744073709551615 : Int) ≠ -1 :=
  ⟨by decide, by decide⟩

/-- Claim C4 (amended): a value message starting with field 4 (Varint) returns
the raw unsigned varint value as a Python unbounded integer, identically to
field 5; there is no signed 64-bit reinterpretation of either field. -/
theorem claim_C4_int_field_unsigned (n : Nat) (rest : List Nat) :
    decode_value (encValSpec (.intV n) ++ rest) = .ok (.int (n : Int)) ∧
    decode_value (encValSpec (.uintV n) ++ rest) = .ok (.int (n : Int)) :=
  ⟨decode_value_valSpec (.intV n) True.intro rest,
    decode_value_valSpec (.uintV n) True.intro rest⟩

/-! ### Claim C6 -/

/-- Claim C6: `decode_value` skips any prefix of well-formed unrecognized
fields, then decodes and immediately returns the first recognized
field/wire-type pairing, regardless of what follows it in the buffer (first
match wins); and a buffer consisting only of unrecognized fields decodes to
Absent (`None`). -/
theorem claim_C6_first_match_wins (pre : List WField) (s : ValSpec) (rest : List Nat)
    (hpre : ∀ f ∈ pre,
      goodPayload f.payload ∧ ¬ recognizedValuePair f.num (wireTypeOf f.payload))
    (hs : valSpecGood s) :
    decode_value (encWFields pre ++ (encValSpec s ++ rest)) = .ok (valOf s) ∧
    decode_value (encWFields pre) = .ok PyVal.none := by
  constructor
  · unfold decode_value
    have hge : pre.length ≤ (encWFields pre ++ (encValSpec s ++ rest)).length := by
      have h1 := length_encWFields_ge pre
      simp only [List.length_append]
      omega
    have hsplit : (encWFields pre ++ (encValSpec s ++ rest)).length + 1 =
        ((encWFields pre ++ (encValSpec s ++ rest)).length - pre.length + 1) + pre.length := by
      omega
    rw [hsplit, decodeValueLoop_skipAll pre hpre _ _]
    exact decodeValueLoop_valSpec s hs _ rest
  · unfold decode_value
    have hge : pre.length ≤ (encWFields pre).length := length_encWFields_ge pre
    have hsplit : (encWFields pre).length + 1 =
        ((encWFields pre).length - pre.length + 1) + pre.length := by omega
    rw [hsplit, show encWFields pre = encWFields pre ++ [] from (List.append_nil _).symm,
      decodeValueLoop_skipAll pre hpre _ _]
    exact decodeValueLoop_nil _

/-- Witness for C6: one unrecognized field (number 9, varint payload) is
skipped, the recognized int field returns immediately even though more bytes
follow, and the unrecognized field alone yields Absent. -/
theorem claim_C6_first_match_wins_witness :
    decode_value (encWFields [⟨9, .varintP 5⟩] ++ (encValSpec (.intV 7) ++ [40, 3])) =
      .ok (.int 7) ∧
    decode_value (encWFields [⟨9, .varintP 5⟩]) = .ok PyVal.none :=
  claim_C6_first_match_wins [⟨9, .varintP 5⟩] (.intV 7) [40, 3]
    (by
      intro f hf
      simp only [List.mem_singleton] at hf
      subst hf
      exact ⟨True.intro, by decide⟩)
    True.intro

/-! ### Tags pairing lemmas (claim C5) -/

/-- Flatten a list of (key_id, value_id) pairs into a tags array. -/
def flatPairs : List (Nat × Nat) → List Nat
  | [] => []
  | (k, v) :: rest => k :: v :: flatPairs rest

theorem flatPairs_append (a b : List (Nat × Nat)) :
    flatPairs (a ++ b) = flatPairs a ++ flatPairs b := by
  induction a with
  | nil => rfl
  | cons p rest ih =>
    obtain ⟨k, v⟩ := p
    simp [flatPairs, ih]

theorem t2p_flatPairs_append (keys : List (List Nat)) (values : List PyVal) :
    ∀ (a b : List (Nat × Nat)) (props : Props),
      tags_to_properties keys values (flatPairs (a ++ b)) props =
        tags_to_properties keys values (flatPairs b)
          (tags_to_properties keys values (flatPairs a) props) := by
  intro a
  induction a with
  | nil => intro b props; rfl
  | cons p rest ih =>
    intro b props
    obtain ⟨k, v⟩ := p
    simp only [List.cons_append, flatPairs]
    simp only [tags_to_properties]
    split
    · exact ih b _
    · exact ih b _

theorem t2p_trailing (keys : List (List Nat)) (values : List PyVal) :
    ∀ (pairs : List (Nat × Nat)) (x : Nat) (props : Props),
      tags_to_properties keys values (flatPairs pairs ++ [x]) props =
        tags_to_properties keys values (flatPairs pairs) props := by
  intro pairs
  induction pairs with
  | nil => intro x props; rfl
  | cons p rest ih =>
    intro x props
    obtain ⟨k, v⟩ := p
    simp only [flatPairs, List.cons_append]
    simp only [tags_to_properties]
    split
    · exact ih x _
    · exact ih x _

theorem getProp_map_overwrite (k : List Nat) (v : PyVal) :
    ∀ props : Props, props.any (fun p => p.1 == k) = true →
      getProp (props.map (fun p => if p.1 == k then (k, v) else p)) k = some v := by
  intro props
  induction props with
  | nil => intro h; simp at h
  | cons a rest ih =>
    intro h
    by_cases ha : a.1 = k
    · simp [getProp, List.find?_cons, ha]
    · have ha2 : (a.1 == k) = false := beq_eq_false_iff_ne.mpr ha
      have h2 : rest.any (fun p => p.1 == k) = true := by
        simp only [List.any_cons, ha2, Bool.false_or] at h
        exact h
      simp only [List.map_cons, ha2, Bool.false_eq_true, if_false, getProp,
        List.find?_cons, ha2]
      exact ih h2

theorem getProp_append_new (k : List Nat) (v : PyVal) :
    ∀ props : Props, props.any (fun p => p.1 == k) = false →
      getProp (props ++ [(k, v)]) k = some v := by
  intro props
  induction props with
  | nil => intro _; simp [getProp]
  | cons a rest ih =>
    intro h
    simp only [List.any_cons, Bool.or_eq_false_iff] at h
    simp only [List.cons_append, getProp, List.find?_cons, h.1]
    exact ih h.2

theorem getProp_insertProp (props : Props) (k : List Nat) (v : PyVal) :
    getProp (insertProp props k v) k = some v := by
  unfold insertProp
  by_cases h : props.any (fun p => p.1 == k) = true
  · rw [if_pos h]
    exact getProp_map_overwrite k v props h
  · have h2 : props.any (fun p => p.1 == k) = false := by
      cases hx : props.any (fun p => p.1 == k)
      · rfl
      · exact absurd hx h
    rw [if_neg (by simp [h2])]
    exact getProp_append_new k v props h2

/-- Concatenated varint encodings of a packed array. -/
def encVarints (tags : List Nat) : List Nat := (tags.map encVarint).flatten

theorem encVarints_cons (t : Nat) (ts : List Nat) :
    encVarints (t :: ts) = encVarint t ++ encVarints ts := by
  simp [encVarints]

theorem length_encVarints_ge (tags : List Nat) :
    tags.length ≤ (encVarints tags).length := by
  induction tags with
  | nil => simp [encVarints]
  | cons t ts ih =>
    rw [encVarints_cons, List.length_append]
    have := List.length_pos.mpr (encVarint_ne_nil t)
    simp only [List.length_cons]
    omega

theorem packedVarints_enc_step (fuel t : Nat) (tsrest : List Nat) (budget : Nat)
    (tags : List Nat) (h : budget ≠ 0) :
    packedVarints (fuel + 1) (encVarint t ++ tsrest) budget tags =
      packedVarints fuel tsrest
        (budget - ((encVarint t ++ tsrest).length - tsrest.length)) (tags ++ [t]) := by
  simp only [packedVarints]
  rw [if_neg (by simpa using h), decode_varint_enc]

theorem packedVarints_enc :
    ∀ (tags : List Nat) (fuel : Nat) (acc rest : List Nat),
      packedVarints (fuel + tags.length + 1) (encVarints tags ++ rest)
        (encVarints tags).length acc = .ok (acc ++ tags, rest) := by
  intro tags
  induction tags with
  | nil =>
    intro fuel acc rest
    simp [encVarints, packedVarints]
  | cons t ts ih =>
    intro fuel acc rest
    rw [encVarints_cons]
    have h1 : 0 < (encVarint t).length := List.length_pos.mpr (encVarint_ne_nil t)
    have hbudget : (encVarint t ++ encVarints ts).length ≠ 0 := by
      rw [List.length_append]
      omega
    have hlen : fuel + (t :: ts).length + 1 = (fuel + ts.length + 1) + 1 := by
      simp only [List.length_cons]
      omega
    rw [hlen, List.append_assoc,
      packedVarints_enc_step (fuel + ts.length + 1) t (encVarints ts ++ rest) _ acc hbudget]
    have harith : (encVarint t ++ encVarints ts).length -
        ((encVarint t ++ (encVarints ts ++ rest)).length - (encVarints ts ++ rest).length) =
        (encVarints ts).length := by
      simp only [List.length_append]
      omega
    rw [harith]
    have hrec := ih fuel (acc ++ [t]) rest
    simpa using hrec

/-- A feature message consisting of exactly one packed tags field (field 2). -/
def encPackedTags (tags : List Nat) : List Nat :=
  encVarint 18 ++ encVarint (encVarints tags).length ++ encVarints tags

theorem decode_feature_packed (tags : List Nat) (keys : List (List Nat))
    (values : List PyVal) :
    decode_feature (encPackedTags tags) keys values =
      .ok (tags_to_properties keys values tags []) := by
  unfold decode_feature encPackedTags
  have hdl : (encVarint 18 ++ encVarint (encVarints tags).length ++ encVarints tags).length =
      ((encVarint 18 ++ encVarint (encVarints tags).length ++ encVarints tags).length - 1) + 1 := by
    have h1 : 0 < (encVarint 18).length := List.length_pos.mpr (encVarint_ne_nil 18)
    simp only [List.length_append]
    omega
  rw [hdl]
  simp only [List.append_assoc]
  simp only [decodeFeatureLoop, isEmpty_enc_append, Bool.false_eq_true, if_false,
    decode_varint_enc, show (18 : Nat) >>> 3 = 2 from by decide,
    show (18 : Nat) &&& 7 = 2 from by decide]
  have hfe : (encVarints tags).length + 1 =
      ((encVarints tags).length - tags.length) + tags.length + 1 := by
    have := length_encVarints_ge tags
    omega
  rw [hfe]
  have hpk := packedVarints_enc tags ((encVarints tags).length - tags.length) [] []
  simp only [List.append_nil, List.nil_append] at hpk
  rw [hpk]
  simp [decodeFeatureLoop]

/-! ### Claim C5 -/

/-- Claim C5: in the tags-to-properties conversion of a feature, elements are
paired two at a time; a trailing unpaired element is discarded; a pair whose
key id or value id is out of range (including exactly one past the end) is
dropped without affecting the other pairs; a later in-bounds pair with the same
key string overwrites the earlier value; and a feature message carrying the
tags as its packed field 2 decodes to exactly this conversion. -/
theorem claim_C5_tags_pairing (keys : List (List Nat)) (values : List PyVal)
    (pairs pre post : List (Nat × Nat)) (x kb vb k v : Nat)
    (hbad : keys.length ≤ kb ∨ values.length ≤ vb)
    (hk : k < keys.length) (hv : v < values.length) :
    tags_to_properties keys values (flatPairs pairs ++ [x]) [] =
      tags_to_properties keys values (flatPairs pairs) [] ∧
    tags_to_properties keys values (flatPairs (pre ++ (kb, vb) :: post)) [] =
      tags_to_properties keys values (flatPairs (pre ++ post)) [] ∧
    getProp (tags_to_properties keys values (flatPairs (pairs ++ [(k, v)])) [])
      (keys.get ⟨k, hk⟩) = some (values.get ⟨v, hv⟩) ∧
    decode_feature (encPackedTags (flatPairs pairs)) keys values =
      .ok (tags_to_properties keys values (flatPairs pairs) []) := by
  refine ⟨t2p_trailing keys values pairs x [], ?_, ?_, decode_feature_packed _ keys values⟩
  · rw [t2p_flatPairs_append keys values pre ((kb, vb) :: post) [],
      t2p_flatPairs_append keys values pre post []]
    simp only [flatPairs, tags_to_properties]
    rw [dif_neg (by omega)]
  · rw [t2p_flatPairs_append keys values pairs [(k, v)] []]
    simp only [flatPairs, tags_to_properties]
    rw [dif_pos ⟨hk, hv⟩]
    exact getProp_insertProp _ _ _

/-- Witness for C5 with two keys and two values: trailing element 5 discarded,
pair (2, 0) with key id one past the end dropped, later pair (0, 1) overwrites
the earlier value for key 0, and the packed feature decode agrees. -/
theorem claim_C5_tags_pairing_witness :
    tags_to_properties [[65], [66]] [PyVal.int 1, PyVal.int 2]
        (flatPairs [(0, 0), (1, 1)] ++ [5]) [] =
      tags_to_properties [[65], [66]] [PyVal.int 1, PyVal.int 2]
        (flatPairs [(0, 0), (1, 1)]) [] ∧
    tags_to_properties [[65], [66]] [PyVal.int 1, PyVal.int 2]
        (flatPairs ([(0, 0)] ++ (2, 0) :: [(1, 1)])) [] =
      tags_to_properties [[65], [66]] [PyVal.int 1, PyVal.int 2]
        (flatPairs ([(0, 0)] ++ [(1, 1)])) [] ∧
    getProp (tags_to_properties [[65], [66]] [PyVal.int 1, PyVal.int 2]
        (flatPairs ([(0, 0), (1, 1)] ++ [(0, 1)])) [])
      ([[65], [66]].get ⟨0, by decide⟩) =
      some ([PyVal.int 1, PyVal.int 2].get ⟨1, by decide⟩) ∧
    decode_feature (encPackedTags (flatPairs [(0, 0), (1, 1)])) [[65], [66]]
        [PyVal.int 1, PyVal.int 2] =
      .ok (tags_to_properties [[65], [66]] [PyVal.int 1, PyVal.int 2]
        (flatPairs [(0, 0), (1, 1)]) []) :=
  claim_C5_tags_pairing [[65], [66]] [PyVal.int 1, PyVal.int 2] [(0, 0), (1, 1)]
    [(0, 0)] [(1, 1)] 5 2 0 0 1 (Or.inl (by decide)) (by decide) (by decide)

/-! ### Claims C9 and C10 -/

/-- Claim C9: `salting_now = true` yields SaltingNow regardless of epoch; with
`salting_now = false`, epoch 0 or negative yields Unknown, an epoch 1 hour
before now yields LessThan12h, 20 hours before yields Between12And48h, 72 hours
before yields MoreThan48h, and a future epoch yields MoreThan48h. -/
theorem claim_C9_salting_status (e now : Int) :
    get_salting_status e true now = .salting_now ∧
    get_salting_status 0 false now = .unknown ∧
    (e ≤ 0 → get_salting_status e false now = .unknown) ∧
    (0 < now - 3600 → get_salting_status (now - 3600) false now = .less_than_12h) ∧
    (0 < now - 72000 → get_salting_status (now - 72000) false now = .between_12h_48h) ∧
    (0 < now - 259200 → get_salting_status (now - 259200) false now = .more_than_48h) ∧
    (0 < e → now < e → get_salting_status e false now = .more_than_48h) := by
  refine ⟨by simp [get_salting_status], by simp [get_salting_status], ?_, ?_, ?_, ?_, ?_⟩
  · intro h
    simp [get_salting_status, h]
  · intro h
    have hq : ((now : ℚ) - ((now - 3600 : Int) : ℚ)) / 3600 = 1 := by push_cast; ring
    simp only [get_salting_status, Bool.false_eq_true, if_false, hq]
    rw [if_neg (by omega)]
    norm_num
  · intro h
    have hq : ((now : ℚ) - ((now - 72000 : Int) : ℚ)) / 3600 = 20 := by push_cast; ring
    simp only [get_salting_status, Bool.false_eq_true, if_false, hq]
    rw [if_neg (by omega)]
    norm_num
  · intro h
    have hq : ((now : ℚ) - ((now - 259200 : Int) : ℚ)) / 3600 = 72 := by push_cast; ring
    simp only [get_salting_status, Bool.false_eq_true, if_false, hq]
    rw [if_neg (by omega)]
    norm_num
  · intro he hlt
    simp only [get_salting_status, Bool.false_eq_true, if_false]
    rw [if_neg (by omega)]
    have hq : ((now : ℚ) - (e : ℚ)) / 3600 < 0 := by
      apply div_neg_of_neg_of_pos
      · have hc : (now : ℚ) < (e : ℚ) := by exact_mod_cast hlt
        linarith
      · norm_num
    rw [if_pos hq]

/-- Witness for C9 at now = 1000000 with a negative epoch and a future epoch. -/
theorem claim_C9_salting_status_witness :
    get_salting_status (-5) true 1000000 = .salting_now ∧
    get_salting_status 0 false 1000000 = .unknown ∧
    get_salting_status (-5) false 1000000 = .unknown ∧
    get_salting_status (1000000 - 3600) false 1000000 = .less_than_12h ∧
    get_salting_status (1000000 - 72000) false 1000000 = .between_12h_48h ∧
    get_salting_status (1000000 - 259200) false 1000000 = .more_than_48h ∧
    get_salting_status 2000000 false 1000000 = .more_than_48h := by
  have h1 := claim_C9_salting_status (-5) 1000000
  have h2 := claim_C9_salting_status 2000000 1000000
  exact ⟨h1.1, h1.2.1, h1.2.2.1 (by norm_num), h1.2.2.2.1 (by norm_num),
    h1.2.2.2.2.1 (by norm_num), h1.2.2.2.2.2.1 (by norm_num),
    h2.2.2.2.2.2.2 (by norm_num) (by norm_num)⟩

/-- Claim C10: with `salting_now = false` and a positive epoch, the 12h and 48h
thresholds are half-open below: exactly 12 hours elapsed yields Between12And48h
and exactly 48 hours elapsed yields MoreThan48h, because the comparisons are
strict less-than. -/
theorem claim_C10_threshold_boundaries (now : Int) :
    (0 < now - 43200 → get_salting_status (now - 43200) false now = .between_12h_48h) ∧
    (0 < now - 172800 → get_salting_status (now - 172800) false now = .more_than_48h) := by
  constructor
  · intro h
    have hq : ((now : ℚ) - ((now - 43200 : Int) : ℚ)) / 3600 = 12 := by push_cast; ring
    simp only [get_salting_status, Bool.false_eq_true, if_false, hq]
    rw [if_neg (by omega)]
    norm_num
  · intro h
    have hq : ((now : ℚ) - ((now - 172800 : Int) : ℚ)) / 3600 = 48 := by push_cast; ring
    simp only [get_salting_status, Bool.false_eq_true, if_false, hq]
    rw [if_neg (by omega)]
    norm_num

/-- Witness for C10 at now = 1000000. -/
theorem claim_C10_threshold_boundaries_witness :
    get_salting_status (1000000 - 43200) false 1000000 = .between_12h_48h ∧
    get_salting_status (1000000 - 172800) false 1000000 = .more_than_48h := by
  have h := claim_C10_threshold_boundaries 1000000
  exact ⟨h.1 (by norm_num), h.2 (by norm_num)⟩

/-! ### Claim C8 -/

/-- Claim C8: over exact arithmetic, the tile mapping returns the floor of
`(utm_x - ORIGIN_X) / tile_size` and of `(ORIGIN_Y - utm_y) / tile_size` with
`tile_size = GRID_EXTENT_WIDTH / 2^zoom`: the resulting indices are
characterized by the half-open interval bounds below (the Y axis flipped), and
floor rounds toward negative infinity, so the point one meter west of the grid
origin maps to tile x = -1 (truncation toward zero would give 0). -/
theorem claim_C8_tile_mapping (utm_x utm_y : ℚ) (zoom : Nat) :
    (TILE_GRID_ORIGIN_X + (lat_lon_to_tile utm_x utm_y zoom).1 *
        (TILE_GRID_EXTENT_WIDTH / 2 ^ zoom) ≤ utm_x ∧
      utm_x < TILE_GRID_ORIGIN_X + ((lat_lon_to_tile utm_x utm_y zoom).1 + 1) *
        (TILE_GRID_EXTENT_WIDTH / 2 ^ zoom)) ∧
    (TILE_GRID_ORIGIN_Y - ((lat_lon_to_tile utm_x utm_y zoom).2 + 1) *
        (TILE_GRID_EXTENT_WIDTH / 2 ^ zoom) < utm_y ∧
      utm_y ≤ TILE_GRID_ORIGIN_Y - (lat_lon_to_tile utm_x utm_y zoom).2 *
        (TILE_GRID_EXTENT_WIDTH / 2 ^ zoom)) ∧
    lat_lon_to_tile 119999 6500000 0 = (-1, 0) := by
  have hts : (0 : ℚ) < TILE_GRID_EXTENT_WIDTH / 2 ^ zoom := by
    unfold TILE_GRID_EXTENT_WIDTH
    positivity
  set ts : ℚ := TILE_GRID_EXTENT_WIDTH / 2 ^ zoom with hts_def
  have htsne : ts ≠ 0 := ne_of_gt hts
  refine ⟨?_, ?_, ?_⟩
  · simp only [lat_lon_to_tile]
    set q : ℚ := (utm_x - TILE_GRID_ORIGIN_X) / ts with hq_def
    have h1 : ((⌊q⌋ : ℚ)) ≤ q := Int.floor_le q
    have h2 : q < ⌊q⌋ + 1 := Int.lt_floor_add_one q
    have hmul : q * ts = utm_x - TILE_GRID_ORIGIN_X := by
      rw [hq_def, div_mul_cancel₀ _ htsne]
    constructor
    · have := mul_le_mul_of_nonneg_right h1 (le_of_lt hts)
      rw [hmul] at this
      linarith
    · have := mul_lt_mul_of_pos_right h2 hts
      rw [hmul] at this
      linarith
  · simp only [lat_lon_to_tile]
    set q : ℚ := (TILE_GRID_ORIGIN_Y - utm_y) / ts with hq_def
    have h1 : ((⌊q⌋ : ℚ)) ≤ q := Int.floor_le q
    have h2 : q < ⌊q⌋ + 1 := Int.lt_floor_add_one q
    have hmul : q * ts = TILE_GRID_ORIGIN_Y - utm_y := by
      rw [hq_def, div_mul_cancel₀ _ htsne]
    constructor
    · have := mul_lt_mul_of_pos_right h2 hts
      rw [hmul] at this
      linarith
    · have := mul_le_mul_of_nonneg_right h1 (le_of_lt hts)
      rw [hmul] at this
      linarith
  · norm_num [lat_lon_to_tile, TILE_GRID_ORIGIN_X, TILE_GRID_ORIGIN_Y,
      TILE_GRID_EXTENT_WIDTH, Prod.ext_iff]

/-! ### Claim C3 -/

/-- Claim C3: the per-tile fetch returns an empty feature-id list both when the
remote fetch raises and when tile extraction fails for any reason (truncated
data, unknown wire type, invalid UTF-8, invalid gzip), because the whole body
sits in one `try/except Exception` that returns `[]`. -/
theorem claim_C3_per_tile_isolation (decompress : List Nat → Except DErr (List Nat))
    (u : Unit) (content : List Nat) (err : DErr)
    (h : extract_feature_ids decompress content = .error err) :
    fetch_tile_features decompress (.error u) = [] ∧
    fetch_tile_features decompress (.ok content) = [] := by
  refine ⟨rfl, ?_⟩
  simp only [fetch_tile_features]
  rw [h]

/-- Witness for C3: a decompressor that always fails, a fetch error, and the
malformed one-byte tile `[15]` (field 1, unknown wire type 7). -/
theorem claim_C3_per_tile_isolation_witness :
    fetch_tile_features (fun _ => .error .gzipError) (.error ()) = [] ∧
    fetch_tile_features (fun _ => .error .gzipError) (.ok [15]) = [] :=
  claim_C3_per_tile_isolation (fun _ => .error .gzipError) () [15]
    .unknownWireType (by decide)

/-! ### Claim C7 -/

/-- Claim C7: gzip framing is transparent: if a buffer carries the 1F 8B magic
and decompresses to a tile that does not itself start with the magic, then
extraction of the compressed buffer equals extraction of the plain tile. -/
theorem claim_C7_gzip_transparency (decompress : List Nat → Except DErr (List Nat))
    (tile gz : List Nat)
    (hmagic : gz.take 2 = gzipMagic)
    (hdec : decompress gz = .ok tile)
    (hplain : tile.take 2 ≠ gzipMagic) :
    extract_feature_ids decompress gz = extract_feature_ids decompress tile := by
  unfold extract_feature_ids
  rw [if_pos (by simp [hmagic]), if_neg (by simp [hplain]), hdec]

/-- Witness for C7: the two-byte buffer consisting of just the gzip magic,
decompressing to the empty tile. -/
theorem claim_C7_gzip_transparency_witness :
    extract_feature_ids (fun _ => .ok ([] : List Nat)) [31, 139] =
      extract_feature_ids (fun _ => .ok ([] : List Nat)) [] :=
  claim_C7_gzip_transparency (fun _ => .ok ([] : List Nat)) [] [31, 139]
    (by decide) rfl (by decide)

/-! ### Layer decoding lemmas (claim C2) -/

theorem encLayerFields_cons (f : LayerField) (fs : List LayerField) :
    encLayerFields (f :: fs) = encLayerField f ++ encLayerFields fs := by
  simp [encLayerFields]

theorem one_le_length_encLayerField (f : LayerField) : 1 ≤ (encLayerField f).length := by
  cases f with
  | keyF b =>
    have := List.length_pos.mpr (encVarint_ne_nil 26)
    simp only [encLayerField, List.length_append]
    omega
  | valF b =>
    have := List.length_pos.mpr (encVarint_ne_nil 34)
    simp only [encLayerField, List.length_append]
    omega
  | featF b =>
    have := List.length_pos.mpr (encVarint_ne_nil 18)
    simp only [encLayerField, List.length_append]
    omega

theorem length_encLayerFields_ge :
    ∀ fs : List LayerField, fs.length ≤ (encLayerFields fs).length := by
  intro fs
  induction fs with
  | nil => simp [encLayerFields]
  | cons f fs ih =>
    rw [encLayerFields_cons]
    have := one_le_length_encLayerField f
    simp only [List.length_cons, List.length_append]
    omega

theorem decodeLayerLoop_step_key (fuel : Nat) (b rest : List Nat)
    (ks : List (List Nat)) (vs : List PyVal) (fds : List (List Nat))
    (hutf : utf8Valid b = true) :
    decodeLayerLoop (fuel + 1) (encLayerField (.keyF b) ++ rest) ks vs fds =
      decodeLayerLoop fuel rest (ks ++ [b]) vs fds := by
  simp [encLayerField, List.append_assoc, decodeLayerLoop, isEmpty_enc_append,
    decode_varint_enc, List.take_left, List.drop_left, hutf,
    show (26 : Nat) &&& 7 = 2 from by decide]

theorem decodeLayerLoop_step_val_ok (fuel : Nat) (b rest : List Nat) (v : PyVal)
    (ks : List (List Nat)) (vs : List PyVal) (fds : List (List Nat))
    (hv : decode_value b = .ok v) :
    decodeLayerLoop (fuel + 1) (encLayerField (.valF b) ++ rest) ks vs fds =
      decodeLayerLoop fuel rest ks (vs ++ [v]) fds := by
  simp [encLayerField, List.append_assoc, decodeLayerLoop, isEmpty_enc_append,
    decode_varint_enc, List.take_left, List.drop_left, hv,
    show (34 : Nat) &&& 7 = 2 from by decide]

theorem decodeLayerLoop_step_val_err (fuel : Nat) (b rest : List Nat) (e : DErr)
    (ks : List (List Nat)) (vs : List PyVal) (fds : List (List Nat))
    (hv : decode_value b = .error e) :
    decodeLayerLoop (fuel + 1) (encLayerField (.valF b) ++ rest) ks vs fds = .error e := by
  simp [encLayerField, List.append_assoc, decodeLayerLoop, isEmpty_enc_append,
    decode_varint_enc, List.take_left, List.drop_left, hv,
    show (34 : Nat) &&& 7 = 2 from by decide]

theorem decodeLayerLoop_step_feat (fuel : Nat) (b rest : List Nat)
    (ks : List (List Nat)) (vs : List PyVal) (fds : List (List Nat)) :
    decodeLayerLoop (fuel + 1) (encLayerField (.featF b) ++ rest) ks vs fds =
      decodeLayerLoop fuel rest ks vs (fds ++ [b]) := by
  simp [encLayerField, List.append_assoc, decodeLayerLoop, isEmpty_enc_append,
    decode_varint_enc, List.take_left, List.drop_left,
    show (18 : Nat) &&& 7 = 2 from by decide]

theorem exceptBind_ok {ε α β : Type} (a : α) (f : α → Except ε β) :
    (Except.ok a >>= f) = f a := rfl

theorem exceptBind_err {ε α β : Type} (e : ε) (f : α → Except ε β) :
    ((Except.error e : Except ε α) >>= f) = .error e := rfl

theorem exceptPure {ε α : Type} (a : α) : (pure a : Except ε α) = .ok a := rfl

/-- Sequential decoding of the collected raw value slices, in wire order
(spec-side description used to characterize the collection pass). -/
def decodeValues : List (List Nat) → Except DErr (List PyVal)
  | [] => .ok []
  | b :: rest =>
    match decode_value b with
    | .error e => .error e
    | .ok v =>
      match decodeValues rest with
      | .error e => .error e
      | .ok vs => .ok (v :: vs)

theorem decodeLayerLoop_encFields :
    ∀ fs : List LayerField, (∀ b, LayerField.keyF b ∈ fs → utf8Valid b = true) →
      ∀ (fuel : Nat) (ks : List (List Nat)) (vs : List PyVal) (fds : List (List Nat)),
        decodeLayerLoop (fuel + fs.length + 1) (encLayerFields fs) ks vs fds =
          match decodeValues (layerValSlices fs) with
          | .error e => .error e
          | .ok newvs =>
            .ok (ks ++ layerKeys fs, vs ++ newvs, fds ++ layerFeatSlices fs) := by
  intro fs
  induction fs with
  | nil =>
    intro _ fuel ks vs fds
    simp [encLayerFields, layerValSlices, layerKeys, layerFeatSlices, decodeLayerLoop,
      decodeValues]
  | cons f fs ih =>
    intro hk fuel ks vs fds
    have hk2 : ∀ b, LayerField.keyF b ∈ fs → utf8Valid b = true := fun c hc =>
      hk c (List.mem_cons_of_mem _ hc)
    have hflen : fuel + (f :: fs).length + 1 = (fuel + fs.length + 1) + 1 := by
      simp only [List.length_cons]
      omega
    rw [encLayerFields_cons, hflen]
    cases f with
    | keyF b =>
      have hb : utf8Valid b = true := hk b (List.mem_cons_self ..)
      rw [decodeLayerLoop_step_key _ b _ ks vs fds hb, ih hk2 fuel (ks ++ [b]) vs fds]
      simp only [layerValSlices, layerKeys, layerFeatSlices, List.filterMap_cons]
      cases hm : decodeValues (fs.filterMap (fun f => match f with
          | LayerField.valF b => Option.some b
          | _ => Option.none)) with
      | error e => simp
      | ok newvs => simp
    | valF b =>
      cases hv : decode_value b with
      | error e =>
        rw [decodeLayerLoop_step_val_err _ b _ e ks vs fds hv]
        simp [layerValSlices, List.filterMap_cons, decodeValues, hv]
      | ok v =>
        rw [decodeLayerLoop_step_val_ok _ b _ v ks vs fds hv, ih hk2 fuel ks (vs ++ [v]) fds]
        simp only [layerValSlices, layerKeys, layerFeatSlices, List.filterMap_cons,
          decodeValues, hv]
        cases hm : decodeValues (fs.filterMap (fun f => match f with
            | LayerField.valF b => Option.some b
            | _ => Option.none)) with
        | error e => simp
        | ok newvs => simp
    | featF b =>
      rw [decodeLayerLoop_step_feat _ b _ ks vs fds, ih hk2 fuel ks vs (fds ++ [b])]
      simp only [layerValSlices, layerKeys, layerFeatSlices, List.filterMap_cons]
      cases hm : decodeValues (fs.filterMap (fun f => match f with
          | LayerField.valF b => Option.some b
          | _ => Option.none)) with
      | error e => simp
      | ok newvs => simp

theorem decode_layer_encFields (fs : List LayerField)
    (hkeys : ∀ b, LayerField.keyF b ∈ fs → utf8Valid b = true) :
    decode_layer (encLayerFields fs) =
      match decodeValues (layerValSlices fs) with
      | .error e => .error e
      | .ok values => decodeFeatures (layerKeys fs) values (layerFeatSlices fs) := by
  unfold decode_layer
  have hge := length_encLayerFields_ge fs
  have hsplit : (encLayerFields fs).length + 1 =
      ((encLayerFields fs).length - fs.length) + fs.length + 1 := by omega
  rw [hsplit, decodeLayerLoop_encFields fs hkeys _ [] [] []]
  cases hm : decodeValues (layerValSlices fs) with
  | error e => rfl
  | ok newvs => simp

theorem layerKeys_append (a b : List LayerField) :
    layerKeys (a ++ b) = layerKeys a ++ layerKeys b := by
  simp [layerKeys, List.filterMap_append]

theorem layerValSlices_append (a b : List LayerField) :
    layerValSlices (a ++ b) = layerValSlices a ++ layerValSlices b := by
  simp [layerValSlices, List.filterMap_append]

theorem layerFeatSlices_append (a b : List LayerField) :
    layerFeatSlices (a ++ b) = layerFeatSlices a ++ layerFeatSlices b := by
  simp [layerFeatSlices, List.filterMap_append]

theorem layerKeys_cons_feat (b : List Nat) (l : List LayerField) :
    layerKeys (LayerField.featF b :: l) = layerKeys l := by
  simp [layerKeys, List.filterMap_cons]

theorem layerValSlices_cons_feat (b : List Nat) (l : List LayerField) :
    layerValSlices (LayerField.featF b :: l) = layerValSlices l := by
  simp [layerValSlices, List.filterMap_cons]

theorem layerFeatSlices_cons_feat (b : List Nat) (l : List LayerField) :
    layerFeatSlices (LayerField.featF b :: l) = b :: layerFeatSlices l := by
  simp [layerFeatSlices, List.filterMap_cons]

theorem layerFeatSlices_eq_nil :
    ∀ l : List LayerField, (∀ b, LayerField.featF b ∉ l) → layerFeatSlices l = [] := by
  intro l
  induction l with
  | nil => intro _; rfl
  | cons f rest ih =>
    intro h
    cases f with
    | keyF b =>
      rw [show layerFeatSlices (LayerField.keyF b :: rest) = layerFeatSlices rest from by
        simp [layerFeatSlices, List.filterMap_cons]]
      exact ih (fun c hc => h c (List.mem_cons_of_mem _ hc))
    | valF b =>
      rw [show layerFeatSlices (LayerField.valF b :: rest) = layerFeatSlices rest from by
        simp [layerFeatSlices, List.filterMap_cons]]
      exact ih (fun c hc => h c (List.mem_cons_of_mem _ hc))
    | featF b => exact absurd (List.mem_cons_self ..) (h b)

/-! ### Claim C2 -/

/-- Claim C2: `decode_layer` is collect-then-resolve.  First conjunct: for any
interleaving of key, value and feature fields, the result equals decoding the
collected value slices in wire order and then resolving every stored feature
slice, in order, against the key and value arrays collected from the entire
buffer.  Second conjunct: a single feature placed before any of the key/value
definitions yields the same result as the same feature placed after all of
them. -/
theorem claim_C2_collect_then_resolve (fs pre post : List LayerField) (fb : List Nat)
    (hkeys : ∀ b, LayerField.keyF b ∈ fs → utf8Valid b = true)
    (hkeys2 : ∀ b, LayerField.keyF b ∈ pre ++ post → utf8Valid b = true)
    (hnofeat : ∀ b, LayerField.featF b ∉ pre ++ post) :
    decode_layer (encLayerFields fs) =
      (match decodeValues (layerValSlices fs) with
       | .error e => .error e
       | .ok values => decodeFeatures (layerKeys fs) values (layerFeatSlices fs)) ∧
    decode_layer (encLayerFields (pre ++ LayerField.featF fb :: post)) =
      decode_layer (encLayerFields (pre ++ post ++ [LayerField.featF fb])) := by
  refine ⟨decode_layer_encFields fs hkeys, ?_⟩
  have hk1 : ∀ b, LayerField.keyF b ∈ pre ++ LayerField.featF fb :: post →
      utf8Valid b = true := by
    intro b hb
    apply hkeys2 b
    simp only [List.mem_append, List.mem_cons] at hb ⊢
    rcases hb with h | h | h
    · exact Or.inl h
    · exact absurd h (by simp)
    · exact Or.inr h
  have hk2 : ∀ b, LayerField.keyF b ∈ (pre ++ post) ++ [LayerField.featF fb] →
      utf8Valid b = true := by
    intro b hb
    apply hkeys2 b
    simp only [List.mem_append, List.mem_singleton] at hb ⊢
    rcases hb with (h | h) | h
    · exact Or.inl h
    · exact Or.inr h
    · exact absurd h (by simp)
  have hpre0 : layerFeatSlices pre = [] :=
    layerFeatSlices_eq_nil pre (fun b hb => hnofeat b (List.mem_append_left _ hb))
  have hpost0 : layerFeatSlices post = [] :=
    layerFeatSlices_eq_nil post (fun b hb => hnofeat b (List.mem_append_right _ hb))
  rw [show pre ++ post ++ [LayerField.featF fb] = (pre ++ post) ++ [LayerField.featF fb]
    from by simp]
  rw [decode_layer_encFields _ hk1, decode_layer_encFields _ hk2]
  have e1 : layerKeys (pre ++ LayerField.featF fb :: post) =
      layerKeys ((pre ++ post) ++ [LayerField.featF fb]) := by
    rw [layerKeys_append, layerKeys_cons_feat, layerKeys_append, layerKeys_append]
    simp [layerKeys]
  have e2 : layerValSlices (pre ++ LayerField.featF fb :: post) =
      layerValSlices ((pre ++ post) ++ [LayerField.featF fb]) := by
    rw [layerValSlices_append, layerValSlices_cons_feat, layerValSlices_append,
      layerValSlices_append]
    simp [layerValSlices]
  have e3 : layerFeatSlices (pre ++ LayerField.featF fb :: post) =
      layerFeatSlices ((pre ++ post) ++ [LayerField.featF fb]) := by
    rw [layerFeatSlices_append, layerFeatSlices_cons_feat, layerFeatSlices_append,
      layerFeatSlices_append, hpre0, hpost0]
    simp [layerFeatSlices]
  rw [e1, e2, e3]

/-- Witness for C2: a layer whose feature slice (a packed-tags feature message
referencing key 0 and value 0) appears before the key featureId and the
int-value definition, compared with the layer where it appears after them. -/
theorem claim_C2_collect_then_resolve_witness :
    decode_layer (encLayerFields [LayerField.keyF [65], LayerField.featF [],
        LayerField.valF (encValSpec (.intV 7))]) =
      (match decodeValues (layerValSlices [LayerField.keyF [65], LayerField.featF [],
          LayerField.valF (encValSpec (.intV 7))]) with
       | .error e => .error e
       | .ok values => decodeFeatures
           (layerKeys [LayerField.keyF [65], LayerField.featF [],
             LayerField.valF (encValSpec (.intV 7))]) values
           (layerFeatSlices [LayerField.keyF [65], LayerField.featF [],
             LayerField.valF (encValSpec (.intV 7))])) ∧
    decode_layer (encLayerFields ([LayerField.keyF [65]] ++
        LayerField.featF (encPackedTags [0, 0]) ::
          [LayerField.valF (encValSpec (.intV 7))])) =
      decode_layer (encLayerFields ([LayerField.keyF [65]] ++
        [LayerField.valF (encValSpec (.intV 7))] ++
          [LayerField.featF (encPackedTags [0, 0])])) :=
  claim_C2_collect_then_resolve
    [LayerField.keyF [65], LayerField.featF [], LayerField.valF (encValSpec (.intV 7))]
    [LayerField.keyF [65]] [LayerField.valF (encValSpec (.intV 7))]
    (encPackedTags [0, 0])
    (by
      intro b hb
      simp only [List.mem_cons, List.not_mem_nil, or_false] at hb
      rcases hb with h | h | h
      · injection h with h2
        subst h2
        decide
      · exact absurd h (by simp)
      · exact absurd h (by simp))
    (by
      intro b hb
      simp only [List.cons_append, List.nil_append, List.mem_cons, List.not_mem_nil,
        or_false] at hb
      rcases hb with h | h
      · injection h with h2
        subst h2
        decide
      · exact absurd h (by simp))
    (by
      intro b hb
      simp only [List.cons_append, List.nil_append, List.mem_cons, List.not_mem_nil,
        or_false] at hb
      rcases hb with h | h
      · exact absurd h (by simp)
      · exact absurd h (by simp))
